import Mathlib

/-
Verification of the duplicate-image-finder pipeline
(src/find_duplicate_images.py) against its design specification.

The embedding is shallow: the Python functions `calculate_file_hash`,
`find_image_files`, `find_duplicates` and the wasted-space computation of
`print_duplicates` become Lean functions over explicit data.  File bytes are
lists of naturals; a file whose read raises IOError/PermissionError is
modelled with `content = none`.  The MD5 implementation of `hashlib` is an
external library, so digests are parametrised by an arbitrary
`md5hex : List Byte → String`; the incremental interface
(`md5()` / `update` / `hexdigest`) is modelled by accumulating the bytes fed
to `update` and applying `md5hex` to the accumulated stream at `hexdigest`,
which is exactly the contract of a streaming hash.  Printed diagnostics are
modelled as explicit string lists.
-/

set_option autoImplicit false

namespace DIF

/-- File bytes (each in 0..255; the proofs never need the bound). -/
abbrev Byte := Nat

/-- A file as seen by the pipeline: its path and the bytes a read returns,
`none` when opening/reading raises IOError or PermissionError. -/
structure PFile where
  path : String
  content : Option (List Byte)
deriving DecidableEq, Repr

/-- Line 22 of the source: the fixed allow-list of image extensions. -/
def IMAGE_EXTENSIONS : List String :=
  [".jpg", ".jpeg", ".png", ".gif", ".bmp", ".webp", ".tiff", ".tif", ".ico", ".svg"]

/-- Python `Path.name`: the final path component (used by the diagnostic of
`calculate_file_hash`). -/
def pyName (p : String) : String := (p.splitOn "/").getLastD p

/-- The read loop of `calculate_file_hash` (line 33):
`while chunk := f.read(chunk_size)` splits the remaining bytes into chunks of
`chunkSize` until the file is exhausted.  `f.read(0)` returns the empty
(falsy) bytes object, so a zero chunk size yields no chunks at all. -/
def readChunks (chunkSize : Nat) (bs : List Byte) : List (List Byte) :=
  if h : chunkSize = 0 ∨ bs = [] then []
  else bs.take chunkSize :: readChunks chunkSize (bs.drop chunkSize)
termination_by bs.length
decreasing_by
  rcases not_or.mp h with ⟨h1, h2⟩
  simp only [List.length_drop]
  exact Nat.sub_lt (List.length_pos.mpr h2) (Nat.pos_of_ne_zero h1)

/-- One `hash_md5.update(chunk)` step: a streaming hash state is the byte
stream fed so far. -/
def md5Update (st chunk : List Byte) : List Byte := st ++ chunk

/-- Lines 28-38 of the source, `calculate_file_hash(file_path, chunk_size)`.
Returns the digest (`none` on a caught read error, as the Python returns
`None`) together with the diagnostics printed: on failure the function prints
a warning naming `file_path.name`. -/
def calculate_file_hash (md5hex : List Byte → String) (f : PFile) (chunkSize : Nat) :
    Option String × List String :=
  match f.content with
  | some bs => (some (md5hex ((readChunks chunkSize bs).foldl md5Update [])), [])
  | none => (none, [pyName f.path])

/-- The digest `find_duplicates` obtains for a file (default chunk size 8192,
line 28). -/
def hashResult (md5hex : List Byte → String) (f : PFile) : Option String :=
  (calculate_file_hash md5hex f 8192).1

/-- Line 68 of the source: `if file_hash:` keeps the file only when the hash
is truthy, i.e. neither `None` nor the empty string. -/
def truthyDigest (md5hex : List Byte → String) (f : PFile) : Option String :=
  match hashResult md5hex f with
  | some s => if s = "" then none else some s
  | none => none

/-- `hash_to_files[file_hash].append(file_path)` on a `defaultdict(list)`
(line 69), over the insertion-ordered association list that models a Python
dict: append to the existing key's list, or add a fresh key at the end. -/
def addFile : List (String × List PFile) → String → PFile → List (String × List PFile)
  | [], h, f => [(h, [f])]
  | (k, fs) :: rest, h, f =>
      if k = h then (k, fs ++ [f]) :: rest else (k, fs) :: addFile rest h f

/-- The body of the loop of `find_duplicates` (lines 63-69) for one file. -/
def hashStep (md5hex : List Byte → String) (m : List (String × List PFile)) (f : PFile) :
    List (String × List PFile) :=
  match truthyDigest md5hex f with
  | some h => addFile m h f
  | none => m

/-- Lines 58-69 of the source: the `hash_to_files` aggregation mapping. -/
def hash_to_files (md5hex : List Byte → String) (files : List PFile) :
    List (String × List PFile) :=
  files.foldl (hashStep md5hex) []

/-- Lines 56-76 of the source: `find_duplicates` keeps only the hashes with
two or more files (line 74, a dict comprehension, which preserves insertion
order). -/
def find_duplicates (md5hex : List Byte → String) (files : List PFile) :
    List (String × List PFile) :=
  (hash_to_files md5hex files).filter (fun p => decide (1 < p.2.length))

/-- All diagnostics printed while hashing the given files (line 37). -/
def scan_diagnostics (md5hex : List Byte → String) (files : List PFile) : List String :=
  files.flatMap (fun f => (calculate_file_hash md5hex f 8192).2)

/-- The keys of the modelled dict, in insertion order. -/
def keys (m : List (String × List PFile)) : List String := m.map Prod.fst

/-- Dict lookup returning the empty group for an absent key. -/
def lookupGroup : List (String × List PFile) → String → List PFile
  | [], _ => []
  | (k, fs) :: rest, h => if k = h then fs else lookupGroup rest h

/-- The files of the input that the loop files under digest `h`, in discovery
order. -/
def filesWithDigest (md5hex : List Byte → String) (files : List PFile) (h : String) :
    List PFile :=
  files.filter (fun f => decide (truthyDigest md5hex f = some h))

/-- `files[0].stat().st_size` for an unmodified file equals the length of its
byte content (an unreadable file never reaches this point; 0 is a dummy). -/
def stSize (f : PFile) : Nat := (f.content.getD []).length

/-- Lines 102-103 of the source: per-group wasted space,
`files[0].stat().st_size * (len(files) - 1)`.  The empty case is unreachable
on groups returned by `find_duplicates`. -/
def group_wasted (files : List PFile) : Nat :=
  match files with
  | [] => 0
  | f :: rest => stSize f * rest.length

/-- Lines 93-104 of the source: the running `total_wasted_space`
accumulation over the groups of the result. -/
def total_wasted_space (dups : List (String × List PFile)) : Nat :=
  dups.foldl (fun acc p => acc + group_wasted p.2) 0

/-- A directory tree.  A file node carries the bytes a read would return
(`none` = read raises); a dir node carries a flag telling whether `scandir`
on it succeeds. -/
inductive FsEntry where
  | file (name : String) (content : Option (List Byte))
  | dir (name : String) (readable : Bool) (children : List FsEntry)
deriving Repr

/-- What one `rglob` iteration yields: path, final name, whether
`item.is_file()` holds, and the readable content for files. -/
structure RawItem where
  path : String
  name : String
  isFile : Bool
  content : Option (List Byte)
deriving DecidableEq, Repr

mutual
/-- The entries `Path.rglob('*')` yields for one child entry: the entry
itself, then (for a directory) its descendants.  Per the documented pathlib
semantics, `scandir` failures inside glob are suppressed, so the contents of
an unreadable directory are silently skipped while the directory entry
itself is still yielded by its parent. -/
def walkEntry (base : String) : FsEntry → List RawItem
  | .file n c => [⟨base ++ "/" ++ n, n, true, c⟩]
  | .dir n r children =>
      ⟨base ++ "/" ++ n, n, false, none⟩ ::
        (if r then walkList (base ++ "/" ++ n) children else [])

/-- `walkEntry` over a list of sibling entries, in directory order. -/
def walkList (base : String) : List FsEntry → List RawItem
  | [] => []
  | e :: es => walkEntry base e ++ walkList base es
end

/-- `directory.rglob('*')` run to completion from the root.  An unreadable
root yields nothing (its `scandir` failure is suppressed too). -/
def rglobAll : FsEntry → List RawItem
  | .file _ _ => []
  | .dir n r children => if r then walkList n children else []

/-- The `rglob` iteration as the `try` block of `find_image_files` sees it:
pathlib documents that OSError raised while scanning is suppressed, so the
iteration always completes normally and the value is always `.ok`; the
`except PermissionError` branch of lines 51-52 is therefore unreachable. -/
def rglobExc (root : FsEntry) : Except String (List RawItem) := .ok (rglobAll root)

/-- Index of the last `.` in a list of characters, if any. -/
def rfindDot : List Char → Option Nat
  | [] => none
  | c :: cs =>
      match rfindDot cs with
      | some i => some (i + 1)
      | none => if c = '.' then some 0 else none

/-- Python `PurePath.suffix` of a name: `name[i:]` for `i = name.rfind('.')`
when `0 < i < len(name) - 1`, else the empty string. -/
def pySuffix (name : String) : String :=
  match rfindDot name.data with
  | none => ""
  | some i =>
      if 0 < i ∧ i + 1 < name.data.length then String.mk (name.data.drop i) else ""

/-- Python `str.lower` restricted to what `Char.toLower` covers. -/
def strLower (s : String) : String := String.mk (s.data.map Char.toLower)

/-- Line 49 of the source: `item.is_file() and item.suffix.lower() in
IMAGE_EXTENSIONS`. -/
def isImageItem (it : RawItem) : Bool :=
  it.isFile && IMAGE_EXTENSIONS.contains (strLower (pySuffix it.name))

/-- A yielded item as the hashing stage consumes it. -/
def toPFile (it : RawItem) : PFile := ⟨it.path, it.content⟩

/-- Lines 40-54 of the source: `find_image_files` collects every
`rglob('*')` item that is a file with an image extension.  The `except`
branch would return the partially built list. -/
def find_image_files (root : FsEntry) : List PFile :=
  match rglobExc root with
  | .ok items => (items.filter isImageItem).map toPFile
  | .error _ => []

/-- The diagnostics `find_image_files` prints about directory access
(line 52); only the `except PermissionError` branch prints one. -/
def find_image_files_diags (root : FsEntry) : List String :=
  match rglobExc root with
  | .ok _ => []
  | .error e => ["Access denied: " ++ e]

mutual
/-- Every regular file in the tree below one entry, whether or not the
directories on the way are readable (the specification's notion of "the
regular files under the tree"). -/
def allFilesEntry (base : String) : FsEntry → List RawItem
  | .file n c => [⟨base ++ "/" ++ n, n, true, c⟩]
  | .dir n _ children => allFilesList (base ++ "/" ++ n) children

/-- `allFilesEntry` over a list of sibling entries. -/
def allFilesList (base : String) : List FsEntry → List RawItem
  | [] => []
  | e :: es => allFilesEntry base e ++ allFilesList base es
end

/-- Every regular file under the root directory. -/
def allFiles : FsEntry → List RawItem
  | .file _ _ => []
  | .dir n _ children => allFilesList n children

mutual
/-- Every directory of the tree (the root included) is readable. -/
def dirsReadable : FsEntry → Bool
  | .file _ _ => true
  | .dir _ r children => r && dirsReadableList children

/-- `dirsReadable` over a list of sibling entries. -/
def dirsReadableList : List FsEntry → Bool
  | [] => true
  | e :: es => dirsReadable e && dirsReadableList es
end

/-- A concrete stand-in digest function for witnesses: always a 32-character
hex string, distinguishing the small contents the witnesses use. -/
def md5c (bs : List Byte) : String :=
  if bs = [] then "d41d8cd98f00b204e9800998ecf8427e"
  else if bs = [1] then "c4ca4238a0b923820dcc509a6f75849b"
  else if bs = [2] then "c81e728d9d4c2f636f067f89cc14862c"
  else "0cc175b9c0f1b6a831c399e269772661"

/-- Sample file: one-byte image `a.jpg`. -/
def fa : PFile := ⟨"pics/a.jpg", some [1]⟩

/-- Sample file: `b.jpg`, deeper in the tree, same byte content as `fa`. -/
def fb : PFile := ⟨"pics/sub/deeper/b.jpg", some [1]⟩

/-- Sample file: `c.png` with different byte content. -/
def fc2 : PFile := ⟨"pics/c.png", some [2]⟩

/-- Sample file whose read fails. -/
def fbad : PFile := ⟨"pics/bad.gif", none⟩

/-- Sample zero-byte files. -/
def fe1 : PFile := ⟨"pics/e1.png", some []⟩

/-- Second sample zero-byte file. -/
def fe2 : PFile := ⟨"pics/e2.png", some []⟩

/-- Sample tree with an unreadable subdirectory next to a readable image. -/
def t7c : FsEntry :=
  .dir "root" true
    [.dir "secret" false [.file "a.jpg" (some [1])], .file "b.jpg" (some [1, 1])]

/-- Fully readable sample tree with images at several depths and one
non-image file. -/
def t8ok : FsEntry :=
  .dir "root" true
    [.dir "sub" true [.file "a.JPG" (some [1])], .file "b.png" (some [1]),
      .file "notes.txt" (some [2])]

/-- Readable sample tree containing no image-extension files. -/
def t8none : FsEntry :=
  .dir "root" true
    [.file "notes.txt" (some [2]), .dir "sub" true [.file "x.doc" none]]

/-! Helper lemmas about the read loop. -/

/-- Folding `update` over the chunks of the read loop feeds exactly the
whole byte content, in order. -/
theorem readChunks_foldl (c : Nat) (hc : c ≠ 0) :
    ∀ (n : Nat) (bs : List Byte), bs.length ≤ n →
      ∀ acc, (readChunks c bs).foldl md5Update acc = acc ++ bs := by
  intro n
  induction n with
  | zero =>
    intro bs hb acc
    have hbs : bs = [] := List.length_eq_zero.mp (Nat.le_zero.mp hb)
    subst hbs
    rw [readChunks]
    simp
  | succ n ih =>
    intro bs hb acc
    rw [readChunks]
    by_cases hbs : bs = []
    · subst hbs
      simp
    · rw [dif_neg (by simp [hc, hbs])]
      have hdrop : (bs.drop c).length ≤ n := by
        rw [List.length_drop]
        have h1 : bs.length - c ≤ bs.length - 1 :=
          Nat.sub_le_sub_left (Nat.one_le_iff_ne_zero.mpr hc) bs.length
        omega
      rw [List.foldl_cons, ih (bs.drop c) hdrop]
      simp [md5Update, List.append_assoc]

/-- The chunked read with the default 8 KiB chunk size reconstructs the byte
content exactly. -/
theorem readChunks_foldl_8192 (bs : List Byte) :
    (readChunks 8192 bs).foldl md5Update [] = bs := by
  simpa using readChunks_foldl 8192 (by decide) bs.length bs le_rfl []

/-! Helper lemmas about the insertion-ordered association list. -/

/-- Lookup after `addFile`: only the added key's group changes, by one
appended member. -/
theorem lookupGroup_addFile (m : List (String × List PFile)) (h h2 : String) (f : PFile) :
    lookupGroup (addFile m h f) h2 =
      if h2 = h then lookupGroup m h2 ++ [f] else lookupGroup m h2 := by
  induction m with
  | nil =>
    by_cases hh : h2 = h
    · simp [addFile, lookupGroup, hh]
    · have hh2 : ¬ h = h2 := fun hc => hh hc.symm
      simp [addFile, lookupGroup, hh, hh2]
  | cons q rest ih =>
    obtain ⟨k, fs⟩ := q
    by_cases hk : k = h
    · by_cases hh : h2 = h
      · have hkh2 : k = h2 := by rw [hk, hh]
        simp [addFile, lookupGroup, hk, hkh2, hh]
      · have hkh2 : ¬ k = h2 := by rw [hk]; exact fun hc => hh hc.symm
        have hht : ¬ h = h2 := fun hc => hh hc.symm
        simp [addFile, lookupGroup, hk, hkh2, hh, hht]
    · by_cases hkh2 : k = h2
      · have hh : ¬ h2 = h := by rw [← hkh2]; exact fun hc => hk hc
        simp [addFile, lookupGroup, hk, hkh2, hh]
      · simp [addFile, lookupGroup, hk, hkh2, ih]

/-- Key membership after `addFile`. -/
theorem mem_keys_addFile (m : List (String × List PFile)) (h h2 : String) (f : PFile) :
    h2 ∈ keys (addFile m h f) ↔ h2 ∈ keys m ∨ h2 = h := by
  induction m with
  | nil => simp [addFile, keys]
  | cons q rest ih =>
    obtain ⟨k, fs⟩ := q
    by_cases hk : k = h
    · simp only [addFile, if_pos hk, keys, List.map_cons, List.mem_cons]
      constructor
      · rintro (h1 | h1)
        · exact Or.inl (Or.inl h1)
        · exact Or.inl (Or.inr h1)
      · rintro ((h1 | h1) | h1)
        · exact Or.inl h1
        · exact Or.inr h1
        · exact Or.inl (h1.trans hk.symm)
    · simp only [addFile, if_neg hk, keys, List.map_cons, List.mem_cons] at ih ⊢
      rw [ih]
      tauto

/-- `addFile` keeps the keys without duplicates. -/
theorem nodup_keys_addFile (m : List (String × List PFile)) (h : String) (f : PFile)
    (hm : (keys m).Nodup) : (keys (addFile m h f)).Nodup := by
  induction m with
  | nil => simp [addFile, keys]
  | cons q rest ih =>
    obtain ⟨k, fs⟩ := q
    simp only [keys, List.map_cons, List.nodup_cons] at hm
    by_cases hk : k = h
    · simp only [addFile, if_pos hk, keys, List.map_cons, List.nodup_cons]
      exact hm
    · have h1 : k ∉ keys (addFile rest h f) := by
        rw [mem_keys_addFile]
        push_neg
        exact ⟨hm.1, hk⟩
      simp only [addFile, if_neg hk, keys, List.map_cons, List.nodup_cons]
      refine ⟨?_, ih hm.2⟩
      simpa [keys] using h1

/-- An absent key looks up to the empty group. -/
theorem lookupGroup_eq_nil (m : List (String × List PFile)) (h : String)
    (hm : h ∉ keys m) : lookupGroup m h = [] := by
  induction m with
  | nil => rfl
  | cons q rest ih =>
    obtain ⟨k, fs⟩ := q
    simp only [keys, List.map_cons, List.mem_cons] at hm
    push_neg at hm
    have hk : ¬ k = h := fun hc => hm.1 hc.symm
    simp [lookupGroup, hk, ih hm.2]

/-- With duplicate-free keys, membership of a pair is exactly key membership
plus agreement with lookup. -/
theorem mem_iff_keys_lookup (m : List (String × List PFile)) (p1 : String) (p2 : List PFile)
    (hm : (keys m).Nodup) :
    (p1, p2) ∈ m ↔ p1 ∈ keys m ∧ p2 = lookupGroup m p1 := by
  induction m with
  | nil => simp [keys, lookupGroup]
  | cons q rest ih =>
    obtain ⟨k, fs⟩ := q
    simp only [keys, List.map_cons, List.nodup_cons] at hm
    have ihr := ih hm.2
    simp only [keys, List.mem_cons, List.map_cons] at ihr ⊢
    by_cases hk : k = p1
    · have hlk : lookupGroup ((k, fs) :: rest) p1 = fs := by simp [lookupGroup, hk]
      rw [hlk]
      constructor
      · rintro (hpq | hpq)
        · rw [Prod.mk.injEq] at hpq
          exact ⟨Or.inl hpq.1, hpq.2⟩
        · exact absurd (ihr.mp hpq).1 (hk ▸ hm.1)
      · rintro ⟨h1, h2⟩
        exact Or.inl (by rw [Prod.mk.injEq]; exact ⟨hk.symm, h2⟩)
    · have hlk : lookupGroup ((k, fs) :: rest) p1 = lookupGroup rest p1 := by
        simp [lookupGroup, hk]
      rw [hlk]
      constructor
      · rintro (hpq | hpq)
        · rw [Prod.mk.injEq] at hpq
          exact absurd hpq.1.symm hk
        · have h3 := ihr.mp hpq
          exact ⟨Or.inr h3.1, h3.2⟩
      · rintro ⟨h1, h2⟩
        rcases h1 with h1 | h1
        · exact absurd h1.symm hk
        · exact Or.inr (ihr.mpr ⟨h1, h2⟩)

/-- Filtering the groups of size at least two commutes with lookup when the
keys are duplicate-free. -/
theorem lookupGroup_filter (m : List (String × List PFile)) (h : String)
    (hm : (keys m).Nodup) :
    lookupGroup (m.filter (fun p => decide (1 < p.2.length))) h =
      if 1 < (lookupGroup m h).length then lookupGroup m h else [] := by
  induction m with
  | nil => simp [lookupGroup]
  | cons q rest ih =>
    obtain ⟨k, fs⟩ := q
    simp only [keys, List.map_cons, List.nodup_cons] at hm
    by_cases hk : k = h
    · subst hk
      have hrest : lookupGroup rest k = [] := lookupGroup_eq_nil rest k hm.1
      by_cases hlen : 1 < fs.length
      · simp [List.filter_cons, hlen, lookupGroup]
      · simp [List.filter_cons, hlen, lookupGroup, ih hm.2, hrest]
    · by_cases hlen : 1 < fs.length
      · simp [List.filter_cons, hlen, lookupGroup, hk, ih hm.2]
      · simp [List.filter_cons, hlen, lookupGroup, hk, ih hm.2]

/-! Helper lemmas about the aggregation loop of `find_duplicates`. -/

/-- The group under digest `h` after the loop is the group before it plus the
processed files carrying truthy digest `h`, in processing order. -/
theorem lookup_foldl (md5hex : List Byte → String) (files : List PFile) :
    ∀ (m : List (String × List PFile)) (h : String),
      lookupGroup (files.foldl (hashStep md5hex) m) h =
        lookupGroup m h ++ filesWithDigest md5hex files h := by
  induction files with
  | nil =>
    intro m h
    simp [filesWithDigest]
  | cons f fs ih =>
    intro m h
    rw [List.foldl_cons, ih]
    cases htd : truthyDigest md5hex f with
    | none =>
      have h1 : hashStep md5hex m f = m := by simp [hashStep, htd]
      have h2 : filesWithDigest md5hex (f :: fs) h = filesWithDigest md5hex fs h := by
        simp [filesWithDigest, List.filter_cons, htd]
      rw [h1, h2]
    | some d =>
      have h1 : hashStep md5hex m f = addFile m d f := by simp [hashStep, htd]
      rw [h1, lookupGroup_addFile]
      by_cases hd : h = d
      · have h2 : filesWithDigest md5hex (f :: fs) h = f :: filesWithDigest md5hex fs h := by
          simp [filesWithDigest, List.filter_cons, htd, hd]
        rw [h2, if_pos hd]
        simp
      · have h2 : filesWithDigest md5hex (f :: fs) h = filesWithDigest md5hex fs h := by
          have hdh : ¬ (d = h) := fun hc => hd hc.symm
          simp [filesWithDigest, List.filter_cons, htd, hdh]
        rw [h2, if_neg hd]

/-- The loop keeps the keys duplicate-free. -/
theorem nodup_keys_foldl (md5hex : List Byte → String) (files : List PFile) :
    ∀ m, (keys m).Nodup → (keys (files.foldl (hashStep md5hex) m)).Nodup := by
  induction files with
  | nil => intro m hm; exact hm
  | cons f fs ih =>
    intro m hm
    rw [List.foldl_cons]
    apply ih
    cases htd : truthyDigest md5hex f with
    | none => simpa [hashStep, htd] using hm
    | some d =>
      have h1 : hashStep md5hex m f = addFile m d f := by simp [hashStep, htd]
      rw [h1]
      exact nodup_keys_addFile m d f hm

/-- A digest is a key after the loop iff it was one before or some processed
file carries it. -/
theorem mem_keys_foldl (md5hex : List Byte → String) (files : List PFile) :
    ∀ m h, h ∈ keys (files.foldl (hashStep md5hex) m) ↔
      h ∈ keys m ∨ ∃ g, g ∈ files ∧ truthyDigest md5hex g = some h := by
  induction files with
  | nil => intro m h; simp
  | cons f fs ih =>
    intro m h
    rw [List.foldl_cons, ih]
    cases htd : truthyDigest md5hex f with
    | none =>
      have h1 : hashStep md5hex m f = m := by simp [hashStep, htd]
      rw [h1]
      constructor
      · rintro (h2 | ⟨g, hg1, hg2⟩)
        · exact Or.inl h2
        · exact Or.inr ⟨g, List.mem_cons_of_mem _ hg1, hg2⟩
      · rintro (h2 | ⟨g, hg1, hg2⟩)
        · exact Or.inl h2
        · rcases List.mem_cons.mp hg1 with hg | hg
          · rw [hg, htd] at hg2
            cases hg2
          · exact Or.inr ⟨g, hg, hg2⟩
    | some d =>
      have h1 : hashStep md5hex m f = addFile m d f := by simp [hashStep, htd]
      rw [h1, mem_keys_addFile]
      constructor
      · rintro ((h2 | h2) | ⟨g, hg1, hg2⟩)
        · exact Or.inl h2
        · exact Or.inr ⟨f, List.mem_cons_self _ _, by rw [htd, h2]⟩
        · exact Or.inr ⟨g, List.mem_cons_of_mem _ hg1, hg2⟩
      · rintro (h2 | ⟨g, hg1, hg2⟩)
        · exact Or.inl (Or.inl h2)
        · rcases List.mem_cons.mp hg1 with hg | hg
          · rw [hg, htd] at hg2
            exact Or.inl (Or.inr (Option.some.inj hg2).symm)
          · exact Or.inr ⟨g, hg, hg2⟩

/-- The group under digest `h` of the aggregation mapping is exactly the list
of input files carrying truthy digest `h`, in discovery order. -/
theorem lookup_hash_to_files (md5hex : List Byte → String) (files : List PFile) (h : String) :
    lookupGroup (hash_to_files md5hex files) h = filesWithDigest md5hex files h := by
  have h1 := lookup_foldl md5hex files [] h
  simpa [hash_to_files, lookupGroup] using h1

/-- The aggregation mapping has duplicate-free keys. -/
theorem nodup_keys_hash_to_files (md5hex : List Byte → String) (files : List PFile) :
    (keys (hash_to_files md5hex files)).Nodup :=
  nodup_keys_foldl md5hex files [] (by simp [keys])

/-- A digest is a key of the aggregation mapping iff some input file carries
it. -/
theorem mem_keys_hash_to_files (md5hex : List Byte → String) (files : List PFile) (h : String) :
    h ∈ keys (hash_to_files md5hex files) ↔
      ∃ g, g ∈ files ∧ truthyDigest md5hex g = some h := by
  have h1 := mem_keys_foldl md5hex files [] h
  simpa [hash_to_files, keys] using h1

/-- The result of `find_duplicates` has duplicate-free keys. -/
theorem nodup_keys_find_duplicates (md5hex : List Byte → String) (files : List PFile) :
    (keys (find_duplicates md5hex files)).Nodup := by
  have hsub : List.Sublist (keys (find_duplicates md5hex files))
      (keys (hash_to_files md5hex files)) :=
    List.Sublist.map Prod.fst (List.filter_sublist _)
  exact List.Nodup.sublist hsub (nodup_keys_hash_to_files md5hex files)

/-- Canonical description of membership in the result of `find_duplicates`:
an entry is a digest carried by at least two input files, together with the
full discovery-ordered list of the files carrying it. -/
theorem mem_find_duplicates (md5hex : List Byte → String) (files : List PFile)
    (p : String × List PFile) :
    p ∈ find_duplicates md5hex files ↔
      1 < (filesWithDigest md5hex files p.1).length ∧
        p.2 = filesWithDigest md5hex files p.1 := by
  obtain ⟨p1, p2⟩ := p
  rw [find_duplicates, List.mem_filter,
    mem_iff_keys_lookup _ p1 p2 (nodup_keys_hash_to_files md5hex files),
    lookup_hash_to_files]
  simp only [decide_eq_true_eq]
  constructor
  · rintro ⟨⟨hk, hl⟩, hlen⟩
    exact ⟨by rw [← hl]; exact hlen, hl⟩
  · rintro ⟨hlen, hl⟩
    refine ⟨⟨?_, hl⟩, by rw [hl]; exact hlen⟩
    rw [mem_keys_hash_to_files]
    have hne : filesWithDigest md5hex files p1 ≠ [] := by
      intro hc
      rw [hc] at hlen
      simp at hlen
    obtain ⟨g, hg⟩ := List.exists_mem_of_ne_nil _ hne
    rw [filesWithDigest] at hg
    have h2 := List.mem_filter.mp hg
    exact ⟨g, h2.1, of_decide_eq_true h2.2⟩

/-- Lookup in the result of `find_duplicates`. -/
theorem lookup_find_duplicates (md5hex : List Byte → String) (files : List PFile) (h : String) :
    lookupGroup (find_duplicates md5hex files) h =
      if 1 < (filesWithDigest md5hex files h).length
      then filesWithDigest md5hex files h else [] := by
  rw [find_duplicates, lookupGroup_filter _ _ (nodup_keys_hash_to_files md5hex files),
    lookup_hash_to_files]

/-- A digest is reported as duplicate iff at least two input files carry it. -/
theorem mem_keys_find_duplicates (md5hex : List Byte → String) (files : List PFile) (h : String) :
    h ∈ keys (find_duplicates md5hex files) ↔
      1 < (filesWithDigest md5hex files h).length := by
  constructor
  · intro hh
    rw [keys, List.mem_map] at hh
    obtain ⟨p, hp, hph⟩ := hh
    have h1 := (mem_find_duplicates md5hex files p).mp hp
    exact hph ▸ h1.1
  · intro hlen
    have hp : (h, filesWithDigest md5hex files h) ∈ find_duplicates md5hex files :=
      (mem_find_duplicates md5hex files (h, filesWithDigest md5hex files h)).mpr ⟨hlen, rfl⟩
    rw [keys, List.mem_map]
    exact ⟨(h, filesWithDigest md5hex files h), hp, rfl⟩

/-- Every member of a reported group is an input file carrying the group's
digest. -/
theorem digest_of_mem_group (md5hex : List Byte → String) (files : List PFile)
    (p : String × List PFile) (g : PFile)
    (hp : p ∈ find_duplicates md5hex files) (hg : g ∈ p.2) :
    g ∈ files ∧ truthyDigest md5hex g = some p.1 := by
  have h1 := (mem_find_duplicates md5hex files p).mp hp
  rw [h1.2, filesWithDigest] at hg
  have h2 := List.mem_filter.mp hg
  exact ⟨h2.1, of_decide_eq_true h2.2⟩

/-- The running total of `print_duplicates` as a sum over the groups. -/
theorem foldl_wasted (dups : List (String × List PFile)) :
    ∀ a, dups.foldl (fun acc p => acc + group_wasted p.2) a
      = a + (dups.map (fun p => group_wasted p.2)).sum := by
  induction dups with
  | nil => intro a; simp
  | cons p rest ih =>
    intro a
    rw [List.foldl_cons, ih]
    simp [Nat.add_assoc]

/-- `total_wasted_space` is the sum of the per-group wasted spaces. -/
theorem total_wasted_eq_sum (dups : List (String × List PFile)) :
    total_wasted_space dups = (dups.map (fun p => group_wasted p.2)).sum := by
  simpa [total_wasted_space] using foldl_wasted dups 0

/-- Files whose read fails contribute nothing to the aggregation loop: the
loop over all files equals the loop over the readable ones. -/
theorem foldl_filter_readable (md5hex : List Byte → String) (files : List PFile) :
    ∀ m, files.foldl (hashStep md5hex) m =
      (files.filter (fun g => g.content.isSome)).foldl (hashStep md5hex) m := by
  induction files with
  | nil => intro m; rfl
  | cons f fs ih =>
    intro m
    cases hc : f.content with
    | none =>
      have h1 : hashStep md5hex m f = m := by
        simp [hashStep, truthyDigest, hashResult, calculate_file_hash, hc]
      rw [List.foldl_cons, h1, List.filter_cons]
      have h2 : (f.content.isSome) = false := by rw [hc]; rfl
      rw [h2]
      simpa using ih m
    | some bs =>
      have h2 : (f.content.isSome) = true := by rw [hc]; rfl
      rw [List.foldl_cons, List.filter_cons, h2]
      simpa using ih (hashStep md5hex m f)

/-! Helper lemmas about the directory traversal. -/

/-- `walkList` distributes over sibling concatenation: enumeration of a
directory's entries processes every sibling, whatever came before. -/
theorem walkList_append (base : String) (es1 es2 : List FsEntry) :
    walkList base (es1 ++ es2) = walkList base es1 ++ walkList base es2 := by
  induction es1 with
  | nil => rfl
  | cons e es ih => rw [List.cons_append, walkList, walkList, ih, List.append_assoc]

/-- A directory item never passes the image filter. -/
theorem isImageItem_dirItem (p n : String) (c : Option (List Byte)) :
    isImageItem ⟨p, n, false, c⟩ = false := rfl

mutual
/-- Over a subtree whose directories are all readable, the image files the
traversal yields are exactly the image files of the subtree. -/
theorem filter_walkEntry (base : String) (e : FsEntry) (hr : dirsReadable e = true) :
    (walkEntry base e).filter isImageItem = (allFilesEntry base e).filter isImageItem := by
  cases e with
  | file n c => rfl
  | dir n r children =>
    have hr2 : r = true ∧ dirsReadableList children = true := by
      simpa [dirsReadable, Bool.and_eq_true] using hr
    rw [walkEntry, allFilesEntry, hr2.1, if_pos rfl, List.filter_cons]
    rw [show isImageItem ⟨base ++ "/" ++ n, n, false, none⟩ = false from rfl]
    simpa using filter_walkList (base ++ "/" ++ n) children hr2.2

/-- `filter_walkEntry` for a list of sibling entries. -/
theorem filter_walkList (base : String) (es : List FsEntry)
    (hr : dirsReadableList es = true) :
    (walkList base es).filter isImageItem = (allFilesList base es).filter isImageItem := by
  cases es with
  | nil => rfl
  | cons e es2 =>
    have hr2 : dirsReadable e = true ∧ dirsReadableList es2 = true := by
      simpa [dirsReadableList, Bool.and_eq_true] using hr
    rw [walkList, allFilesList, List.filter_append, List.filter_append,
      filter_walkEntry base e hr2.1, filter_walkList base es2 hr2.2]
end

/-- Over a fully readable tree, the image files `rglob` yields are exactly
the image files of the tree. -/
theorem filter_rglobAll (root : FsEntry) (hr : dirsReadable root = true) :
    (rglobAll root).filter isImageItem = (allFiles root).filter isImageItem := by
  cases root with
  | file n c => rfl
  | dir n r children =>
    have hr2 : r = true ∧ dirsReadableList children = true := by
      simpa [dirsReadable, Bool.and_eq_true] using hr
    rw [rglobAll, allFiles, hr2.1, if_pos rfl]
    exact filter_walkList n children hr2.2

mutual
/-- Every file item the traversal yields is a regular file of the tree (the
traversal can only skip subtrees, never invent entries). -/
theorem mem_walkEntry_isFile (base : String) (e : FsEntry) (it : RawItem)
    (hit : it ∈ walkEntry base e) (hf : it.isFile = true) :
    it ∈ allFilesEntry base e := by
  cases e with
  | file n c =>
    simpa [walkEntry, allFilesEntry] using hit
  | dir n r children =>
    rw [walkEntry] at hit
    rcases List.mem_cons.mp hit with hit | hit
    · rw [hit] at hf
      cases hf
    · rw [allFilesEntry]
      cases r with
      | true => exact mem_walkList_isFile (base ++ "/" ++ n) children it (by simpa using hit) hf
      | false => simp at hit

/-- `mem_walkEntry_isFile` for a list of sibling entries. -/
theorem mem_walkList_isFile (base : String) (es : List FsEntry) (it : RawItem)
    (hit : it ∈ walkList base es) (hf : it.isFile = true) :
    it ∈ allFilesList base es := by
  cases es with
  | nil => simpa [walkList] using hit
  | cons e es2 =>
    rw [walkList] at hit
    rw [allFilesList, List.mem_append]
    rcases List.mem_append.mp hit with hit | hit
    · exact Or.inl (mem_walkEntry_isFile base e it hit hf)
    · exact Or.inr (mem_walkList_isFile base es2 it hit hf)
end

/-! Helper lemmas about the hashing stage. -/

/-- A readable file hashes successfully, with no diagnostic, to the hash of
its whole content: the chunks of the read loop concatenate back to the
content. -/
theorem calculate_file_hash_some (md5hex : List Byte → String) (f : PFile) (bs : List Byte)
    (hc : f.content = some bs) :
    calculate_file_hash md5hex f 8192 = (some (md5hex bs), []) := by
  simp [calculate_file_hash, hc, readChunks_foldl_8192]

/-- An unreadable file hashes to `None` and emits one diagnostic naming the
file. -/
theorem calculate_file_hash_none (md5hex : List Byte → String) (f : PFile)
    (hc : f.content = none) :
    calculate_file_hash md5hex f 8192 = (none, [pyName f.path]) := by
  simp [calculate_file_hash, hc]

/-- An unreadable file has no truthy digest. -/
theorem truthyDigest_none (md5hex : List Byte → String) (f : PFile)
    (hc : f.content = none) : truthyDigest md5hex f = none := by
  simp [truthyDigest, hashResult, calculate_file_hash, hc]

/-- When digests are 32-character strings (as MD5 hexdigests are), a readable
file's truthy digest is the hash of its content. -/
theorem truthyDigest_some (md5hex : List Byte → String)
    (hlen : ∀ bs, (md5hex bs).length = 32) (f : PFile) (bs : List Byte)
    (hc : f.content = some bs) : truthyDigest md5hex f = some (md5hex bs) := by
  have hne : md5hex bs ≠ "" := by
    intro hc2
    have h32 := hlen bs
    rw [hc2] at h32
    exact absurd h32 (by decide)
  simp [truthyDigest, hashResult, calculate_file_hash_some md5hex f bs hc, hne]

/-- When digests are 32-character strings, the truthiness guard changes
nothing: the truthy digest is exactly the hash result. -/
theorem truthyDigest_eq_hashResult (md5hex : List Byte → String)
    (hlen : ∀ bs, (md5hex bs).length = 32) (f : PFile) :
    truthyDigest md5hex f = hashResult md5hex f := by
  cases hc : f.content with
  | none =>
    rw [truthyDigest_none md5hex f hc]
    simp [hashResult, calculate_file_hash, hc]
  | some bs =>
    rw [truthyDigest_some md5hex hlen f bs hc, hashResult,
      calculate_file_hash_some md5hex f bs hc]

/-- When digests are 32-character strings, the files grouped under a digest
are exactly the files whose hash computation returned it. -/
theorem filesWithDigest_eq_hashFilter (md5hex : List Byte → String)
    (hlen : ∀ bs, (md5hex bs).length = 32) (files : List PFile) (h : String) :
    filesWithDigest md5hex files h =
      files.filter (fun f => decide (hashResult md5hex f = some h)) := by
  rw [filesWithDigest]
  apply List.filter_congr
  intro f _
  rw [truthyDigest_eq_hashResult md5hex hlen f]

/-- A list containing two different elements has length at least two. -/
theorem one_lt_length_of_two_mem {α : Type} {l : List α} {a b : α}
    (ha : a ∈ l) (hb : b ∈ l) (hab : a ≠ b) : 1 < l.length := by
  cases l with
  | nil => cases ha
  | cons x t =>
    cases t with
    | nil =>
      rw [List.mem_singleton] at ha hb
      exact absurd (ha.trans hb.symm) hab
    | cons y t2 =>
      simp only [List.length_cons]
      omega

/-- The wasted space of a reported group is the size of the first discovered
member of its digest times one less than the member count. -/
theorem group_wasted_spec (md5hex : List Byte → String) (files : List PFile)
    (p : String × List PFile) (hp : p ∈ find_duplicates md5hex files) :
    group_wasted p.2 =
      stSize ((filesWithDigest md5hex files p.1).headD ⟨"", none⟩) * (p.2.length - 1) := by
  have h1 := (mem_find_duplicates md5hex files p).mp hp
  rcases hl : filesWithDigest md5hex files p.1 with _ | ⟨f0, rest⟩
  · rw [hl] at h1
    simp at h1
  · rw [h1.2, hl]
    simp [group_wasted, List.length_cons]

/-- Folding files that all carry one digest into a singleton mapping extends
the singleton's group. -/
theorem foldl_const_digest (md5hex : List Byte → String) (h0 : String) (files : List PFile) :
    ∀ acc, (∀ f ∈ files, truthyDigest md5hex f = some h0) →
      files.foldl (hashStep md5hex) [(h0, acc)] = [(h0, acc ++ files)] := by
  induction files with
  | nil => intro acc _; simp
  | cons f fs ih =>
    intro acc hall
    rw [List.foldl_cons]
    have hstep : hashStep md5hex [(h0, acc)] f = [(h0, acc ++ [f])] := by
      simp [hashStep, hall f (List.mem_cons_self _ _), addFile]
    rw [hstep, ih (acc ++ [f]) (fun g hg => hall g (List.mem_cons_of_mem _ hg))]
    simp

/-- Every file item `rglob` yields is a regular file of the tree. -/
theorem mem_rglobAll_isFile (root : FsEntry) (it : RawItem)
    (hit : it ∈ rglobAll root) (hf : it.isFile = true) : it ∈ allFiles root := by
  cases root with
  | file n c => simp [rglobAll] at hit
  | dir n r children =>
    rw [rglobAll] at hit
    cases r with
    | true => exact mem_walkList_isFile n children it (by simpa using hit) hf
    | false => simp at hit

/-- The stand-in digest function returns 32-character strings, like an MD5
hexdigest. -/
theorem md5c_len (bs : List Byte) : (md5c bs).length = 32 := by
  rw [md5c]
  split
  · rfl
  · split
    · rfl
    · split
      · rfl
      · rfl

/-! The claims. -/

/-- Claim C4: for every readable file, `calculate_file_hash` folds the bytes
through the hash state in 8192-byte chunks until exhaustion — the folded
stream is exactly the whole content — and the digest equals the hash of the
whole content computed in one shot; the digest depends only on the byte
content, never on the path. -/
theorem C4_chunked_hash_eq_whole (md5hex : List Byte → String) (f : PFile)
    (bs : List Byte) (hc : f.content = some bs) :
    hashResult md5hex f = some (md5hex bs) ∧
      (readChunks 8192 bs).foldl md5Update [] = bs ∧
      ∀ g g2 : PFile, g.content = g2.content →
        hashResult md5hex g = hashResult md5hex g2 := by
  refine ⟨?_, readChunks_foldl_8192 bs, ?_⟩
  · rw [hashResult, calculate_file_hash_some md5hex f bs hc]
  · intro g g2 hg
    cases hgc : g.content with
    | none =>
      have hg2 : g2.content = none := by rw [← hg, hgc]
      simp [hashResult, calculate_file_hash_none md5hex g hgc,
        calculate_file_hash_none md5hex g2 hg2]
    | some cs =>
      have hg2 : g2.content = some cs := by rw [← hg, hgc]
      simp [hashResult, calculate_file_hash_some md5hex g cs hgc,
        calculate_file_hash_some md5hex g2 cs hg2]

/-- Witness for C4 at a concrete one-byte file. -/
theorem C4_witness :
    hashResult md5c fa = some (md5c [1]) ∧
      (readChunks 8192 [1]).foldl md5Update [] = [1] ∧
      ∀ g g2 : PFile, g.content = g2.content →
        hashResult md5c g = hashResult md5c g2 :=
  C4_chunked_hash_eq_whole md5c fa [1] rfl

/-- Claim C1: two different files with identical byte content land together
in exactly one shared duplicate group, whatever their paths; and all members
of any one reported group carry the same digest, so files with distinct
digests never share a group. -/
theorem C1_same_content_shared_group (md5hex : List Byte → String)
    (hlen : ∀ bs, (md5hex bs).length = 32)
    (files : List PFile) (f g : PFile) (bs : List Byte)
    (hf : f ∈ files) (hg : g ∈ files) (hfg : f ≠ g)
    (hfc : f.content = some bs) (hgc : g.content = some bs) :
    (∃! p : String × List PFile,
        p ∈ find_duplicates md5hex files ∧ f ∈ p.2 ∧ g ∈ p.2) ∧
      ∀ p ∈ find_duplicates md5hex files, ∀ a b : PFile, a ∈ p.2 → b ∈ p.2 →
        truthyDigest md5hex a = truthyDigest md5hex b := by
  have htf : truthyDigest md5hex f = some (md5hex bs) :=
    truthyDigest_some md5hex hlen f bs hfc
  have htg : truthyDigest md5hex g = some (md5hex bs) :=
    truthyDigest_some md5hex hlen g bs hgc
  have hfm : f ∈ filesWithDigest md5hex files (md5hex bs) :=
    List.mem_filter.mpr ⟨hf, decide_eq_true htf⟩
  have hgm : g ∈ filesWithDigest md5hex files (md5hex bs) :=
    List.mem_filter.mpr ⟨hg, decide_eq_true htg⟩
  have hlen2 : 1 < (filesWithDigest md5hex files (md5hex bs)).length :=
    one_lt_length_of_two_mem hfm hgm hfg
  have hp0 : (md5hex bs, filesWithDigest md5hex files (md5hex bs)) ∈
      find_duplicates md5hex files :=
    (mem_find_duplicates md5hex files _).mpr ⟨hlen2, rfl⟩
  constructor
  · refine ⟨(md5hex bs, filesWithDigest md5hex files (md5hex bs)), ⟨hp0, hfm, hgm⟩, ?_⟩
    rintro ⟨q1, q2⟩ ⟨hq, hqf, _⟩
    have h1 := digest_of_mem_group md5hex files (q1, q2) f hq hqf
    have hq1 : q1 = md5hex bs := Option.some.inj (h1.2.symm.trans htf)
    have h2 := (mem_find_duplicates md5hex files (q1, q2)).mp hq
    simp only at h2
    rw [Prod.mk.injEq]
    refine ⟨hq1, ?_⟩
    rw [h2.2, hq1]
  · intro p hp a b ha hb
    have h1 := digest_of_mem_group md5hex files p a hp ha
    have h2 := digest_of_mem_group md5hex files p b hp hb
    rw [h1.2, h2.2]

/-- Witness for C1: two same-content files at different path depths. -/
theorem C1_witness :
    (∃! p : String × List PFile,
        p ∈ find_duplicates md5c [fa, fb, fc2] ∧ fa ∈ p.2 ∧ fb ∈ p.2) ∧
      ∀ p ∈ find_duplicates md5c [fa, fb, fc2], ∀ a b : PFile, a ∈ p.2 → b ∈ p.2 →
        truthyDigest md5c a = truthyDigest md5c b :=
  C1_same_content_shared_group md5c md5c_len [fa, fb, fc2] fa fb [1]
    (by decide) (by decide) (by decide) rfl rfl

/-- Claim C2: the mapping returned by `find_duplicates` contains a digest iff
at least two files hashed to it; every retained group has at least two
members and lists exactly the files that hashed to its digest, in discovery
order. -/
theorem C2_mapping_iff_two_carriers (md5hex : List Byte → String)
    (hlen : ∀ bs, (md5hex bs).length = 32) (files : List PFile) :
    (∀ h : String, h ∈ keys (find_duplicates md5hex files) ↔
        1 < (files.filter (fun f => decide (hashResult md5hex f = some h))).length) ∧
      ∀ p ∈ find_duplicates md5hex files,
        1 < p.2.length ∧
          p.2 = files.filter (fun f => decide (hashResult md5hex f = some p.1)) := by
  constructor
  · intro h
    rw [mem_keys_find_duplicates, filesWithDigest_eq_hashFilter md5hex hlen]
  · intro p hp
    have h1 := (mem_find_duplicates md5hex files p).mp hp
    constructor
    · rw [h1.2]
      exact h1.1
    · rw [h1.2, filesWithDigest_eq_hashFilter md5hex hlen]

/-- Witness for C2 on a three-file input with one duplicate pair. -/
theorem C2_witness :
    (∀ h : String, h ∈ keys (find_duplicates md5c [fa, fb, fc2]) ↔
        1 < ([fa, fb, fc2].filter (fun f => decide (hashResult md5c f = some h))).length) ∧
      ∀ p ∈ find_duplicates md5c [fa, fb, fc2],
        1 < p.2.length ∧
          p.2 = [fa, fb, fc2].filter (fun f => decide (hashResult md5c f = some p.1)) :=
  C2_mapping_iff_two_carriers md5c md5c_len [fa, fb, fc2]

/-- Claim C3: each reported group wastes the byte size of the first
discovered member of its digest times (member count − 1), and the total
wasted space accumulated by the reporting loop is the sum of that quantity
over all retained groups. -/
theorem C3_wasted_space (md5hex : List Byte → String) (files : List PFile) :
    (∀ p ∈ find_duplicates md5hex files,
        group_wasted p.2 =
          stSize ((filesWithDigest md5hex files p.1).headD ⟨"", none⟩) *
            (p.2.length - 1)) ∧
      total_wasted_space (find_duplicates md5hex files) =
        ((find_duplicates md5hex files).map
          (fun p => stSize ((filesWithDigest md5hex files p.1).headD ⟨"", none⟩) *
            (p.2.length - 1))).sum := by
  constructor
  · exact fun p hp => group_wasted_spec md5hex files p hp
  · rw [total_wasted_eq_sum]
    exact List.map_congr_left (fun p hp => group_wasted_spec md5hex files p hp) ▸ rfl

/-- Witness for C3 on a concrete duplicate pair plus a unique file. -/
theorem C3_witness :
    group_wasted [fa, fb] =
      stSize ((filesWithDigest md5c [fa, fb, fc2] (md5c [1])).headD ⟨"", none⟩) *
        ([fa, fb].length - 1) ∧
      total_wasted_space (find_duplicates md5c [fa, fb, fc2]) =
        ((find_duplicates md5c [fa, fb, fc2]).map
          (fun p => stSize ((filesWithDigest md5c [fa, fb, fc2] p.1).headD ⟨"", none⟩) *
            (p.2.length - 1))).sum := by
  have h1 := truthyDigest_some md5c md5c_len fa [1] rfl
  have h2 := truthyDigest_some md5c md5c_len fb [1] rfl
  have h3 := truthyDigest_some md5c md5c_len fc2 [2] rfl
  have hne : ¬ (md5c [2] = md5c [1]) := by decide
  have hfw : filesWithDigest md5c [fa, fb, fc2] (md5c [1]) = [fa, fb] := by
    simp [filesWithDigest, List.filter_cons, h1, h2, h3, hne]
  have hp0 : ((md5c [1], [fa, fb]) : String × List PFile) ∈
      find_duplicates md5c [fa, fb, fc2] :=
    (mem_find_duplicates md5c [fa, fb, fc2] (md5c [1], [fa, fb])).mpr
      ⟨by rw [hfw]; decide, hfw.symm⟩
  exact ⟨(C3_wasted_space md5c [fa, fb, fc2]).1 (md5c [1], [fa, fb]) hp0,
    (C3_wasted_space md5c [fa, fb, fc2]).2⟩

/-- Claim C5: hashing a zero-byte file succeeds with the hash-of-empty-input
digest, and any two or more zero-byte files form one single duplicate group
containing all of them. -/
theorem C5_empty_files_grouped (md5hex : List Byte → String)
    (hne : md5hex [] ≠ "") (files : List PFile)
    (hall : ∀ f ∈ files, f.content = some ([] : List Byte))
    (hlen2 : 2 ≤ files.length) :
    (∀ f : PFile, f.content = some ([] : List Byte) →
        hashResult md5hex f = some (md5hex [])) ∧
      find_duplicates md5hex files = [(md5hex [], files)] := by
  have hsucc : ∀ f : PFile, f.content = some ([] : List Byte) →
      hashResult md5hex f = some (md5hex []) := by
    intro f hc
    rw [hashResult, calculate_file_hash_some md5hex f [] hc]
  refine ⟨hsucc, ?_⟩
  have htd : ∀ f ∈ files, truthyDigest md5hex f = some (md5hex []) := by
    intro f hf
    simp [truthyDigest, hsucc f (hall f hf), hne]
  have hmain : hash_to_files md5hex files = [(md5hex [], files)] := by
    cases files with
    | nil => simp at hlen2
    | cons f fs =>
      rw [hash_to_files, List.foldl_cons]
      have hstep : hashStep md5hex [] f = [(md5hex [], [f])] := by
        simp [hashStep, htd f (List.mem_cons_self _ _), addFile]
      rw [hstep, foldl_const_digest md5hex (md5hex []) fs [f]
        (fun g hg => htd g (List.mem_cons_of_mem _ hg))]
      simp
  rw [find_duplicates, hmain, List.filter_cons]
  have hl : 1 < files.length := lt_of_lt_of_le (by decide) hlen2
  simp [hl]

/-- Witness for C5 on two concrete zero-byte files. -/
theorem C5_witness :
    (∀ f : PFile, f.content = some ([] : List Byte) →
        hashResult md5c f = some (md5c [])) ∧
      find_duplicates md5c [fe1, fe2] = [(md5c [], [fe1, fe2])] :=
  C5_empty_files_grouped md5c (by decide) [fe1, fe2] (by decide) (by decide)

/-- Claim C6: a file whose read fails yields a diagnostic naming it, appears
in no reported group, and the scan result equals the scan over the readable
files alone — the failure aborts nothing. -/
theorem C6_unreadable_excluded (md5hex : List Byte → String) (files : List PFile)
    (f : PFile) (hf : f ∈ files) (hc : f.content = none) :
    pyName f.path ∈ scan_diagnostics md5hex files ∧
      (∀ p ∈ find_duplicates md5hex files, f ∉ p.2) ∧
      find_duplicates md5hex files =
        find_duplicates md5hex (files.filter (fun g => g.content.isSome)) := by
  refine ⟨?_, ?_, ?_⟩
  · rw [scan_diagnostics]
    apply List.mem_flatMap.mpr
    refine ⟨f, hf, ?_⟩
    rw [calculate_file_hash_none md5hex f hc]
    exact List.mem_singleton.mpr rfl
  · intro p hp hmem
    have h1 := digest_of_mem_group md5hex files p f hp hmem
    rw [truthyDigest_none md5hex f hc] at h1
    cases h1.2
  · have h3 : hash_to_files md5hex files =
        hash_to_files md5hex (files.filter (fun g => g.content.isSome)) := by
      rw [hash_to_files, hash_to_files]
      exact foldl_filter_readable md5hex files []
    rw [find_duplicates, find_duplicates, h3]

/-- Witness for C6 with one unreadable file among two readable duplicates. -/
theorem C6_witness :
    pyName fbad.path ∈ scan_diagnostics md5c [fa, fbad, fb] ∧
      (∀ p ∈ find_duplicates md5c [fa, fbad, fb], fbad ∉ p.2) ∧
      find_duplicates md5c [fa, fbad, fb] =
        find_duplicates md5c ([fa, fbad, fb].filter (fun g => g.content.isSome)) :=
  C6_unreadable_excluded md5c [fa, fbad, fb] fbad (by decide) rfl

/-- Claim C10: a file is omitted from the aggregation mapping iff its hash
computation failed — with 32-character hexdigests the truthiness guard never
discards a successfully hashed file, and each hashed file is filed under
exactly its own digest. -/
theorem C10_guard_never_discards (md5hex : List Byte → String)
    (hlen : ∀ bs, (md5hex bs).length = 32) (files : List PFile) (f : PFile)
    (hf : f ∈ files) :
    (f.content = none → ∀ h : String, f ∉ lookupGroup (hash_to_files md5hex files) h) ∧
      ∀ bs : List Byte, f.content = some bs →
        f ∈ lookupGroup (hash_to_files md5hex files) (md5hex bs) ∧
          ∀ h : String, f ∈ lookupGroup (hash_to_files md5hex files) h →
            h = md5hex bs := by
  constructor
  · intro hc h hmem
    rw [lookup_hash_to_files, filesWithDigest] at hmem
    have h2 := of_decide_eq_true (List.mem_filter.mp hmem).2
    rw [truthyDigest_none md5hex f hc] at h2
    cases h2
  · intro bs hc
    have htd : truthyDigest md5hex f = some (md5hex bs) :=
      truthyDigest_some md5hex hlen f bs hc
    constructor
    · rw [lookup_hash_to_files]
      exact List.mem_filter.mpr ⟨hf, decide_eq_true htd⟩
    · intro h hmem
      rw [lookup_hash_to_files, filesWithDigest] at hmem
      have h1 := of_decide_eq_true (List.mem_filter.mp hmem).2
      rw [htd] at h1
      exact (Option.some.inj h1).symm

/-- Witness for C10: the unreadable file is in no digest list; a hashed file
is filed under exactly its digest. -/
theorem C10_witness :
    (∀ h : String, fbad ∉ lookupGroup (hash_to_files md5c [fa, fbad, fb]) h) ∧
      fa ∈ lookupGroup (hash_to_files md5c [fa, fbad, fb]) (md5c [1]) ∧
      ∀ h : String, fa ∈ lookupGroup (hash_to_files md5c [fa, fbad, fb]) h →
        h = md5c [1] := by
  have h1 := (C10_guard_never_discards md5c md5c_len [fa, fbad, fb] fbad (by decide)).1 rfl
  have h2 := (C10_guard_never_discards md5c md5c_len [fa, fbad, fb] fa (by decide)).2 [1] rfl
  exact ⟨h1, h2.1, h2.2⟩

/-- Counterexample to C7 as stated: in `t7c` the subdirectory `root/secret`
cannot be opened.  Enumeration does continue with the sibling `root/b.jpg`
(the skipped subtree's image never appears), but no directory diagnostic is
emitted at all — pathlib suppresses the scan error before the `except`
handler that would print one can see it — refuting the claim's "yielding a
diagnostic". -/
theorem C7_counterexample :
    find_image_files_diags t7c = [] ∧
      find_image_files t7c = [⟨"root/b.jpg", some [1, 1]⟩] :=
  ⟨rfl, rfl⟩

/-- Claim C7 as amended: an unreadable directory is skipped silently — its
entry is still listed but its contents are not descended into, the sibling
entries before and after it are all still enumerated, the enumeration always
runs to completion (the diagnostic-printing `except` branch is unreachable,
so no directory diagnostic is ever emitted and nothing is truncated). -/
theorem C7_unreadable_dir_skipped (base n : String) (children es1 es2 : List FsEntry) :
    walkList base (es1 ++ FsEntry.dir n false children :: es2) =
      walkList base es1 ++
        (⟨base ++ "/" ++ n, n, false, none⟩ : RawItem) :: walkList base es2 ∧
      (∀ root : FsEntry, find_image_files_diags root = []) ∧
      ∀ root : FsEntry,
        find_image_files root = ((rglobAll root).filter isImageItem).map toPFile := by
  refine ⟨?_, fun root => rfl, fun root => rfl⟩
  rw [show FsEntry.dir n false children :: es2 = [FsEntry.dir n false children] ++ es2
    from rfl, walkList_append, walkList_append]
  rw [show walkList base [FsEntry.dir n false children] =
    [⟨base ++ "/" ++ n, n, false, none⟩] from rfl]
  simp

/-- Claim C8: over a fully readable tree the enumerator yields exactly the
regular files whose lower-cased extension is in the allow-list — every such
file and nothing else; and a tree without image-extension files produces an
empty group mapping. -/
theorem C8_enumerates_exactly_images (root : FsEntry) :
    (dirsReadable root = true →
        find_image_files root = ((allFiles root).filter isImageItem).map toPFile) ∧
      ∀ md5hex : List Byte → String, (allFiles root).filter isImageItem = [] →
        find_duplicates md5hex (find_image_files root) = [] := by
  constructor
  · intro hr
    show ((rglobAll root).filter isImageItem).map toPFile = _
    rw [filter_rglobAll root hr]
  · intro md5hex hnil
    have hempty : find_image_files root = [] := by
      show ((rglobAll root).filter isImageItem).map toPFile = []
      rw [List.map_eq_nil_iff, List.filter_eq_nil_iff]
      intro it hit hii
      have hisf : it.isFile = true := by
        have h1 := hii
        rw [isImageItem, Bool.and_eq_true] at h1
        exact h1.1
      have h2 := mem_rglobAll_isFile root it hit hisf
      exact (List.filter_eq_nil_iff.mp hnil it h2) hii
    rw [hempty]
    rfl

/-- Witness for C8: the readable tree `t8ok` enumerates exactly its image
files; the image-free tree `t8none` yields an empty group mapping. -/
theorem C8_witness :
    find_image_files t8ok = ((allFiles t8ok).filter isImageItem).map toPFile ∧
      find_duplicates md5c (find_image_files t8none) = [] :=
  ⟨(C8_enumerates_exactly_images t8ok).1 rfl,
    (C8_enumerates_exactly_images t8none).2 md5c rfl⟩

/-- Claim C9: scanning the same unmodified input twice — allowing only for a
different traversal order of the same files — reports the same duplicate
digests, the same group members, and the same total wasted space (sizes
being consistent across equal digests, as they are for genuine content
duplicates). -/
theorem C9_scan_idempotent (md5hex : List Byte → String)
    (files1 files2 : List PFile) (hperm : files1.Perm files2)
    (hsz : ∀ f g : PFile, f ∈ files1 → g ∈ files1 →
      truthyDigest md5hex f = truthyDigest md5hex g → stSize f = stSize g) :
    (∀ h : String, h ∈ keys (find_duplicates md5hex files1) ↔
        h ∈ keys (find_duplicates md5hex files2)) ∧
      (∀ h : String, (lookupGroup (find_duplicates md5hex files1) h).Perm
        (lookupGroup (find_duplicates md5hex files2) h)) ∧
      total_wasted_space (find_duplicates md5hex files1) =
        total_wasted_space (find_duplicates md5hex files2) := by
  have hfwd : ∀ h, (filesWithDigest md5hex files1 h).Perm
      (filesWithDigest md5hex files2 h) :=
    fun h => hperm.filter _
  have hflen : ∀ h, (filesWithDigest md5hex files1 h).length =
      (filesWithDigest md5hex files2 h).length :=
    fun h => (hfwd h).length_eq
  have hkeys : ∀ h : String, h ∈ keys (find_duplicates md5hex files1) ↔
      h ∈ keys (find_duplicates md5hex files2) := by
    intro h
    rw [mem_keys_find_duplicates, mem_keys_find_duplicates, hflen h]
  refine ⟨hkeys, ?_, ?_⟩
  · intro h
    rw [lookup_find_duplicates, lookup_find_duplicates, hflen h]
    by_cases hl : 1 < (filesWithDigest md5hex files2 h).length
    · rw [if_pos hl, if_pos hl]
      exact hfwd h
    · rw [if_neg hl, if_neg hl]
  · have hw1 : ∀ p ∈ find_duplicates md5hex files1,
        group_wasted p.2 =
          stSize ((filesWithDigest md5hex files1 p.1).headD ⟨"", none⟩) *
            ((filesWithDigest md5hex files1 p.1).length - 1) := by
      intro p hp
      rw [group_wasted_spec md5hex files1 p hp,
        ((mem_find_duplicates md5hex files1 p).mp hp).2]
    have hw2 : ∀ p ∈ find_duplicates md5hex files2,
        group_wasted p.2 =
          stSize ((filesWithDigest md5hex files1 p.1).headD ⟨"", none⟩) *
            ((filesWithDigest md5hex files1 p.1).length - 1) := by
      intro p hp
      have hmem := (mem_find_duplicates md5hex files2 p).mp hp
      rcases h1 : filesWithDigest md5hex files1 p.1 with _ | ⟨x1, r1⟩
      · have h2 : filesWithDigest md5hex files2 p.1 = [] :=
          ((h1 ▸ hfwd p.1).symm).eq_nil
        rw [h2] at hmem
        simp at hmem
      · rcases h2 : filesWithDigest md5hex files2 p.1 with _ | ⟨x2, r2⟩
        · rw [h2] at hmem
          simp at hmem
        · have hx1m : x1 ∈ filesWithDigest md5hex files1 p.1 := by
            rw [h1]
            exact List.mem_cons_self _ _
          have hx2m : x2 ∈ filesWithDigest md5hex files1 p.1 :=
            (hfwd p.1).mem_iff.mpr (by rw [h2]; exact List.mem_cons_self _ _)
          have hx1f := List.mem_filter.mp (by rw [filesWithDigest] at hx1m; exact hx1m)
          have hx2f := List.mem_filter.mp (by rw [filesWithDigest] at hx2m; exact hx2m)
          have hdig : truthyDigest md5hex x1 = truthyDigest md5hex x2 :=
            (of_decide_eq_true hx1f.2).trans (of_decide_eq_true hx2f.2).symm
          have hsz12 : stSize x2 = stSize x1 :=
            (hsz x1 x2 hx1f.1 hx2f.1 hdig).symm
          rw [group_wasted_spec md5hex files2 p hp, hmem.2, h2]
          simp only [List.headD_cons]
          rw [hsz12]
          have hlen12 : (x2 :: r2).length = (x1 :: r1).length := by
            rw [← h1, ← h2, hflen p.1]
          rw [hlen12]
    have hm1 : (find_duplicates md5hex files1).map (fun p => group_wasted p.2) =
        (keys (find_duplicates md5hex files1)).map
          (fun h => stSize ((filesWithDigest md5hex files1 h).headD ⟨"", none⟩) *
            ((filesWithDigest md5hex files1 h).length - 1)) := by
      rw [keys, List.map_map]
      exact List.map_congr_left hw1
    have hm2 : (find_duplicates md5hex files2).map (fun p => group_wasted p.2) =
        (keys (find_duplicates md5hex files2)).map
          (fun h => stSize ((filesWithDigest md5hex files1 h).headD ⟨"", none⟩) *
            ((filesWithDigest md5hex files1 h).length - 1)) := by
      rw [keys, List.map_map]
      exact List.map_congr_left hw2
    have hkp : (keys (find_duplicates md5hex files1)).Perm
        (keys (find_duplicates md5hex files2)) :=
      (List.perm_ext_iff_of_nodup (nodup_keys_find_duplicates md5hex files1)
        (nodup_keys_find_duplicates md5hex files2)).mpr hkeys
    rw [total_wasted_eq_sum, total_wasted_eq_sum, hm1, hm2]
    exact (hkp.map _).sum_eq

/-- Witness for C9: the same two duplicate files enumerated in the two
possible orders. -/
theorem C9_witness :
    (∀ h : String, h ∈ keys (find_duplicates md5c [fa, fb]) ↔
        h ∈ keys (find_duplicates md5c [fb, fa])) ∧
      (∀ h : String, (lookupGroup (find_duplicates md5c [fa, fb]) h).Perm
        (lookupGroup (find_duplicates md5c [fb, fa]) h)) ∧
      total_wasted_space (find_duplicates md5c [fa, fb]) =
        total_wasted_space (find_duplicates md5c [fb, fa]) := by
  have hs : ∀ f : PFile, f ∈ [fa, fb] → stSize f = 1 := by
    intro f hf
    rcases List.mem_cons.mp hf with h1 | h1
    · rw [h1]; rfl
    · rw [List.mem_singleton] at h1
      rw [h1]; rfl
  exact C9_scan_idempotent md5c [fa, fb] [fb, fa] (List.Perm.swap fb fa [])
    (fun f g hf hg _ => by rw [hs f hf, hs g hg])

end DIF
